import Mathlib

/-!
Verification of the xline-operator sources against their specification.

The development shallowly embeds the relevant Rust functions:
samples of state are passed in explicitly where the original performs HTTP
or RPC calls, hash maps are represented by association lists in iteration
order (or by lookup functions), and machine integers are carried as `Int`
or `Nat` with explicit bounds where they matter.
-/

namespace XlineOperator

/-- Sidecar operator state, from the enum `State` in `src/sidecar/src/types.rs`. -/
inductive State : Type
  | Start : State
  | Pending : State
  | OK : State
deriving DecidableEq, Repr

/-- The state payload each sidecar exposes, from struct `StatePayload` in
`src/sidecar/src/types.rs`. `revision` is an `i64` in the source. -/
structure StatePayload where
  state : State
  revision : Int
deriving DecidableEq, Repr

/-- Value of `i64::MIN`, the initial value of `max_rev` in `StateStatus::gather`. -/
def i64Min : Int := -(2 ^ 63)

/-- The gathered states, from struct `StateStatus` in `src/sidecar/src/types.rs`.
The `states` hash map is represented as a lookup function that returns `none`
for absent keys. -/
structure StateStatus where
  seeder : String
  states : State → Option Nat

/-- Effect on one key of
`states.entry(state).and_modify(|cnt| cnt.add_assign(1)).or_default()`:
if the key is occupied its counter is incremented, otherwise the `usize`
default `0` is inserted. -/
def entryAndModifyOrDefault (m : State → Option Nat) (s : State) : State → Option Nat :=
  fun t => if t = s then some ((m s).elim 0 (fun c => c + 1)) else m t

/-- Accumulator of the loop inside `StateStatus::gather`. -/
structure GatherAcc where
  seeder : String
  maxRev : Int
  states : State → Option Nat

/-- One iteration of the loop body of `StateStatus::gather`. -/
def gatherStep (acc : GatherAcc) (p : String × StatePayload) : GatherAcc :=
  { seeder := if p.2.revision > acc.maxRev then p.1 else acc.seeder
    maxRev := if p.2.revision > acc.maxRev then p.2.revision else acc.maxRev
    states := entryAndModifyOrDefault acc.states p.2.state }

/-- Shallow embedding of `StateStatus::gather` (src/sidecar/src/types.rs, lines
135-161). The `sidecars` hash map together with the payload fetched from each
sidecar is presented as a list of `(name, payload)` pairs in iteration order;
every HTTP fetch is assumed to succeed, since on any failure the Rust function
returns early with an error and produces no `StateStatus` at all. -/
def StateStatus.gather (sidecars : List (String × StatePayload)) : StateStatus :=
  let acc := sidecars.foldl gatherStep
    { seeder := "", maxRev := i64Min, states := fun _ => none }
  { seeder := acc.seeder, states := acc.states }

/-- Number of gathered payloads that report state `s`. -/
def stateCount (s : State) (l : List (String × StatePayload)) : Nat :=
  l.countP (fun p => p.2.state == s)

/-- Iterating the per-key entry update `k` times. -/
def bumpIter : Nat → Option Nat → Option Nat
  | 0, o => o
  | Nat.succ k, o => some ((bumpIter k o).elim 0 (fun c => c + 1))

theorem bumpIter_comm (k : Nat) (o : Option Nat) :
    bumpIter k (some (o.elim 0 (fun c => c + 1))) =
      some ((bumpIter k o).elim 0 (fun c => c + 1)) := by
  induction k generalizing o with
  | zero => rfl
  | succ k ih => simp only [bumpIter, ih]

theorem foldl_gatherStep_states (l : List (String × StatePayload)) (acc : GatherAcc)
    (s : State) :
    (l.foldl gatherStep acc).states s = bumpIter (stateCount s l) (acc.states s) := by
  induction l generalizing acc with
  | nil => rfl
  | cons p l ih =>
    simp only [List.foldl_cons, ih, stateCount, List.countP_cons]
    by_cases h : p.2.state = s
    · subst h
      simp only [beq_self_eq_true, if_pos, bumpIter, gatherStep, entryAndModifyOrDefault,
        if_true]
      rw [bumpIter_comm]
    · have hb : (p.2.state == s) = false := by
        simpa using h
      simp only [hb, Bool.false_eq_true, if_false, Nat.add_zero]
      have hs : (gatherStep acc p).states s = acc.states s := by
        simp only [gatherStep, entryAndModifyOrDefault]
        rw [if_neg (fun hc => h hc.symm)]
      rw [hs]

/-- Counting behaviour of the gather loop: a state reported by `n ≥ 1` payloads is
recorded with counter `n - 1`, because the first occurrence inserts the default
`0` instead of `1`; a state reported by no payload is absent. -/
theorem gather_states_eq (l : List (String × StatePayload)) (s : State) :
    (StateStatus.gather l).states s =
      if stateCount s l = 0 then none else some (stateCount s l - 1) := by
  have h := foldl_gatherStep_states l
    { seeder := "", maxRev := i64Min, states := fun _ => none } s
  have hb : ∀ k : Nat, bumpIter k (none : Option Nat) =
      if k = 0 then none else some (k - 1) := by
    intro k
    induction k with
    | zero => rfl
    | succ k ih =>
      cases k with
      | zero => rfl
      | succ k => simp [bumpIter, ih] at *; simp [bumpIter, ih]
  simpa [StateStatus.gather, hb] using h

/-- C1: the states map returned by `StateStatus::gather` should record, for every
state reported by exactly `n ≥ 1` peers, the count `n`. The code instead inserts
the default `0` on the first occurrence (`.and_modify(...).or_default()`), so a
state reported by exactly one peer is recorded with count `0`, and a state
reported by all three peers of a three-member cluster is recorded with count `2`. -/
theorem gather_count_off_by_one :
    (StateStatus.gather [("a", { state := State.OK, revision := 1 })]).states State.OK
        = some 0
      ∧ (StateStatus.gather
          [("a", { state := State.Start, revision := 1 }),
           ("b", { state := State.Start, revision := 1 }),
           ("c", { state := State.Start, revision := 1 })]).states State.Start
        = some 2 := by
  constructor <;> rfl

/-- Modelled from the spec: struct `MemberConfig` belongs to the sidecar
`types.rs` revision this spec was written from, which is missing from the
sources here (only its callers in `controller.rs` and its construction in
`main.rs` are present). Per the spec, the member configuration holds the member
map (name to host) and the managed-service and sidecar ports. -/
structure MemberConfig where
  members : List (String × String)
  xline_port : Nat
  sidecar_port : Nat
deriving DecidableEq, Repr

/-- Modelled from the spec: `sidecar_members()` appends the sidecar port to each
host. -/
def MemberConfig.sidecar_members (c : MemberConfig) : List (String × String) :=
  c.members.map (fun p => (p.1, p.2 ++ ":" ++ toString c.sidecar_port))

/-- Modelled from the spec: `managed_members()` (named `xline_members()` at the
call sites) appends the managed-service port to each host. -/
def MemberConfig.xline_members (c : MemberConfig) : List (String × String) :=
  c.members.map (fun p => (p.1, p.2 ++ ":" ++ toString c.xline_port))

/-- Modelled from the spec: `majority = ⌊size/2⌋ + 1` where the size is the
number of members. -/
def MemberConfig.majority_cnt (c : MemberConfig) : Nat :=
  c.members.length / 2 + 1

/-- Externally visible effects of one `Controller::reconcile_once` tick. -/
inductive Action : Type
  | applyMembers (members : List (String × String))
  | setState (s : State)
  | installBackup
  | backup
  | stop
  | start (members : List (String × String))
deriving DecidableEq, Repr

/-- Rust `Option::is_some_and` restricted to the counter type. -/
def isSomeAnd (o : Option Nat) (f : Nat → Bool) : Bool :=
  match o with
  | none => false
  | some c => f c

/-- Shallow embedding of `Controller::reconcile_once`
(src/sidecar/src/controller.rs, lines 198-272), recording the sequence of
effects of one tick. `payloads` are the state payloads fetched from the
sidecar members in iteration order (the input to `StateStatus::gather`),
`clusterHealth` and `xlineRunning` are the results of the two handle probes,
and every handle call is assumed to succeed (a failing call aborts the tick
with an error after the effects already listed). -/
def reconcileOnce (name : String) (cfg : MemberConfig)
    (clusterHealth xlineRunning : Bool)
    (payloads : List (String × StatePayload)) : List Action :=
  let xlineMembers := cfg.xline_members
  let clusterSize := cfg.members.length
  let majority := cfg.majority_cnt
  let states := StateStatus.gather payloads
  Action.applyMembers xlineMembers ::
    match clusterHealth, xlineRunning with
    | true, true => [Action.setState State.OK]
    | true, false => [Action.setState State.Pending, Action.start xlineMembers]
    | false, true =>
        Action.setState State.Pending ::
          (if isSomeAnd (states.states State.OK) (fun c => decide (majority ≤ c)) then []
           else [Action.backup, Action.stop])
    | false, false =>
        let isSeeder := states.seeder == name
        (if isSeeder then [] else [Action.installBackup]) ++
          (Action.setState State.Start ::
            (if isSomeAnd (states.states State.Start) (fun c => c != clusterSize) then []
             else if isSeeder then [Action.start xlineMembers] else []))

/-- A three-member configuration used as concrete input. -/
def cfg3 : MemberConfig :=
  { members := [("a", "h1"), ("b", "h2"), ("c", "h3")]
    xline_port := 2379, sidecar_port := 2380 }

/-- C2: in the `(cluster_health, process_running) = (false, false)` branch the
seeder should call `start` exactly when all `cluster_size` peers report `Start`.
Concrete run refuting this: member `a` has the highest revision (so it is the
seeder) and all three peers of the three-member cluster report `Start`, yet the
tick stops after publishing `Start` and never calls `start`, because the
gathered counter for `Start` is `2`, which the code compares against
`cluster_size = 3` (`*c != cluster_size`) and so takes the wait branch. -/
theorem reconcile_seeder_never_starts_on_all_start :
    reconcileOnce "a" cfg3 false false
        [("a", { state := State.Start, revision := 5 }),
         ("b", { state := State.Start, revision := 1 }),
         ("c", { state := State.Start, revision := 1 })]
      = [Action.applyMembers [("a", "h1:2379"), ("b", "h2:2379"), ("c", "h3:2379")],
         Action.setState State.Start] := by
  rfl

/-- C3: in the `(false, true)` branch the member should wait whenever at least
`majority = ⌊3/2⌋ + 1 = 2` peers report `OK`. Concrete run refuting this:
exactly two of the three peers report `OK`, yet the tick performs `backup`
followed by `stop`, because the gathered counter for `OK` is `1 < 2`. -/
theorem reconcile_backs_up_despite_majority_ok :
    reconcileOnce "a" cfg3 false true
        [("a", { state := State.Pending, revision := 1 }),
         ("b", { state := State.OK, revision := 1 }),
         ("c", { state := State.OK, revision := 1 })]
      = [Action.applyMembers [("a", "h1:2379"), ("b", "h2:2379"), ("c", "h3:2379")],
         Action.setState State.Pending, Action.backup, Action.stop] := by
  rfl

theorem foldl_gatherStep_maxRev_lt (l : List (String × StatePayload)) (acc : GatherAcc)
    (r : Int) (hacc : acc.maxRev < r) (h : ∀ q ∈ l, q.2.revision < r) :
    (l.foldl gatherStep acc).maxRev < r := by
  induction l generalizing acc with
  | nil => exact hacc
  | cons p l ih =>
    refine ih (gatherStep acc p) ?_ (fun q hq => h q (List.mem_cons_of_mem p hq))
    have hp := h p (List.mem_cons_self p l)
    simp only [gatherStep]
    split <;> [exact hp; exact hacc]

theorem foldl_gatherStep_seeder_frozen (l : List (String × StatePayload)) (acc : GatherAcc)
    (h : ∀ q ∈ l, q.2.revision ≤ acc.maxRev) :
    (l.foldl gatherStep acc).seeder = acc.seeder := by
  induction l generalizing acc with
  | nil => rfl
  | cons p l ih =>
    have hp := h p (List.mem_cons_self p l)
    have hstep : gatherStep acc p =
        { seeder := acc.seeder, maxRev := acc.maxRev,
          states := entryAndModifyOrDefault acc.states p.2.state } := by
      simp only [gatherStep]
      rw [if_neg (not_lt.mpr hp), if_neg (not_lt.mpr hp)]
    rw [List.foldl_cons, hstep, ih]
    intro q hq
    exact h q (List.mem_cons_of_mem p hq)

/-- C4 (amended): the seeder chosen by `StateStatus::gather` is the peer that is
iterated first among those whose revision strictly exceeds every earlier
revision; in particular, when the maximal revision exceeds `i64::MIN` it is the
first-iterated peer holding the maximal revision. The lexicographic tie-break
the spec promises does not exist in the code. -/
theorem gather_seeder_first_max (l1 l2 : List (String × StatePayload))
    (p : String × StatePayload)
    (h1 : ∀ q ∈ l1, q.2.revision < p.2.revision)
    (h2 : ∀ q ∈ l2, q.2.revision ≤ p.2.revision)
    (h0 : i64Min < p.2.revision) :
    (StateStatus.gather (l1 ++ p :: l2)).seeder = p.1 := by
  unfold StateStatus.gather
  rw [List.foldl_append, List.foldl_cons]
  set acc0 : GatherAcc := { seeder := "", maxRev := i64Min, states := fun _ => none }
  have hlt : (l1.foldl gatherStep acc0).maxRev < p.2.revision :=
    foldl_gatherStep_maxRev_lt l1 acc0 p.2.revision h0 h1
  have hstep : gatherStep (l1.foldl gatherStep acc0) p =
      { seeder := p.1, maxRev := p.2.revision,
        states := entryAndModifyOrDefault (l1.foldl gatherStep acc0).states p.2.state } := by
    simp only [gatherStep]
    rw [if_pos hlt, if_pos hlt]
  rw [hstep]
  exact foldl_gatherStep_seeder_frozen l2 _ (fun q hq => h2 q hq)

/-- Closed instance of the amended C4 statement: out of `b` (revision 4), `c`
(revision 7) and `a` (revision 7), the gather loop picks `c`, the first peer
iterated with the maximal revision. -/
theorem gather_seeder_first_max_witness :
    (StateStatus.gather
        [("b", { state := State.OK, revision := 4 }),
         ("c", { state := State.OK, revision := 7 }),
         ("a", { state := State.OK, revision := 7 })]).seeder = "c" := by
  exact gather_seeder_first_max
    [("b", { state := State.OK, revision := 4 })]
    [("a", { state := State.OK, revision := 7 })]
    ("c", { state := State.OK, revision := 7 })
    (by intro q hq; simp at hq; subst hq; decide)
    (by intro q hq; simp at hq; subst hq; decide)
    (by decide)

/-- C4 (counterexample): peers `b` and `a` both report the maximal revision `5`;
the claim requires the lexicographically least name `a` as seeder, but the code
keeps the first-iterated peer `b` (`state.revision > max_rev` is a strict
comparison, so the later tie never replaces it). -/
theorem gather_seeder_not_lex_least :
    (StateStatus.gather
        [("b", { state := State.Start, revision := 5 }),
         ("a", { state := State.Start, revision := 5 })]).seeder = "b"
      ∧ (StateStatus.gather
          [("b", { state := State.Start, revision := 5 }),
           ("a", { state := State.Start, revision := 5 })]).seeder ≠ "a"
      ∧ List.Lex (fun c d => c < d) "a".data "b".data := by
  refine ⟨rfl, by decide, by decide⟩

/-- Snapshot metadata, from struct `Metadata` in the sidecar backup module. -/
structure Metadata where
  name : String
  revision : Int
deriving DecidableEq, Repr

/-- Outcome of `XlineHandle::backup`, abstracting its effects. -/
inductive BackupOutcome : Type
  | skippedNoConfig
  | skippedRemoteNewer
  | saved (meta : Metadata)
deriving DecidableEq, Repr

/-- Shallow embedding of `XlineHandle::backup` (src/sidecar/src/xline.rs, lines
288-323). `provider` is `none` when no backup provider is configured; otherwise
it carries the result of `backup.latest()`. `localRev` is the value returned by
`revision_online()`. Both remote calls are assumed to succeed, since on failure
the Rust function returns early with an error and no effect. -/
def XlineHandle.backup (name : String) (provider : Option (Option Metadata))
    (localRev : Int) : BackupOutcome :=
  match provider with
  | none => BackupOutcome.skippedNoConfig
  | some latest =>
    let remote := latest.map Metadata.revision
    match remote with
    | some r =>
      if localRev < r then BackupOutcome.skippedRemoteNewer
      else BackupOutcome.saved { name := name, revision := localRev }
    | none => BackupOutcome.saved { name := name, revision := localRev }

/-- C5: with a configured provider, `backup()` skips exactly when the latest
remote snapshot exists and its revision strictly exceeds the local online
revision, and otherwise saves the live snapshot under metadata
`{name = self name, revision = local online revision}`. -/
theorem backup_correct (name : String) (m : Metadata) (localRev : Int) :
    (localRev < m.revision →
        XlineHandle.backup name (some (some m)) localRev = BackupOutcome.skippedRemoteNewer)
      ∧ (m.revision ≤ localRev →
        XlineHandle.backup name (some (some m)) localRev
          = BackupOutcome.saved { name := name, revision := localRev })
      ∧ XlineHandle.backup name (some none) localRev
          = BackupOutcome.saved { name := name, revision := localRev } := by
  have hdef : XlineHandle.backup name (some (some m)) localRev
      = if localRev < m.revision then BackupOutcome.skippedRemoteNewer
        else BackupOutcome.saved { name := name, revision := localRev } := rfl
  refine ⟨fun h => ?_, fun h => ?_, rfl⟩
  · rw [hdef, if_pos h]
  · rw [hdef, if_neg (not_lt.mpr h)]

/-- Closed instance of C5: with remote revision 5 and local revision 3 the backup
is skipped; with remote revision 2 and local revision 3 it is saved under the
local revision. -/
theorem backup_correct_witness :
    XlineHandle.backup "a" (some (some { name := "b", revision := 5 })) 3
        = BackupOutcome.skippedRemoteNewer
      ∧ XlineHandle.backup "a" (some (some { name := "b", revision := 2 })) 3
        = BackupOutcome.saved { name := "a", revision := 3 } :=
  ⟨(backup_correct "a" { name := "b", revision := 5 } 3).1 (by decide),
   (backup_correct "a" { name := "b", revision := 2 } 3).2.1 (by decide)⟩

/-- Decode performed by `bytes::Buf::get_i64`: big-endian two's-complement
interpretation of the first 8 bytes; `none` models the panic on a buffer
shorter than 8 bytes. -/
def getI64 (bytes : List Nat) : Option Int :=
  if bytes.length < 8 then none
  else
    let u : Nat := (bytes.take 8).foldl (fun a b => a * 256 + b % 256) 0
    if u < 2 ^ 63 then some (u : Int) else some ((u : Int) - (2 ^ 64 : Int))

/-- Content of the local data directory, as far as the sidecar inspects it: the
keys of the on-disk `kv` table in order, each a byte sequence. -/
structure DataDir where
  kvKeys : List (List Nat)
deriving DecidableEq, Repr

/-- Shallow embedding of `XlineHandle::revision_offline` (src/sidecar/src/xline.rs,
lines 275-285): the revision encoded big-endian in the last key of the on-disk
kv table, or `1` if the table is empty. -/
def XlineHandle.revision_offline (d : DataDir) : Option Int :=
  match d.kvKeys.getLast? with
  | none => some 1
  | some k => getI64 k

/-- Outcome of `XlineHandle::install_backup`. -/
inductive InstallOutcome : Type
  | skippedNoConfig
  | skippedNoBackup
  | installed
  | skippedLocalNewer
  | replaced
  | errBadKey
deriving DecidableEq, Repr

/-- Shallow embedding of `XlineHandle::install_backup` (src/sidecar/src/xline.rs,
lines 326-354). `provider` is `none` when no backup provider is configured;
otherwise it carries the result of `backup.latest()` paired (when a snapshot
exists) with the content obtained by `backup.load(latest)`. `dataDir` is the
current local data directory (`none` when the directory does not exist). The
filesystem calls are assumed to succeed; the returned pair is the outcome and
the new data-directory state. -/
def XlineHandle.install_backup (provider : Option (Option (Metadata × DataDir)))
    (dataDir : Option DataDir) : InstallOutcome × Option DataDir :=
  match provider with
  | none => (InstallOutcome.skippedNoConfig, dataDir)
  | some none => (InstallOutcome.skippedNoBackup, dataDir)
  | some (some (latest, snapshot)) =>
    match dataDir with
    | none => (InstallOutcome.installed, some snapshot)
    | some d =>
      match XlineHandle.revision_offline d with
      | none => (InstallOutcome.errBadKey, some d)
      | some rev =>
        if latest.revision ≤ rev then (InstallOutcome.skippedLocalNewer, some d)
        else (InstallOutcome.replaced, some snapshot)

/-- C6: with a configured provider and an existing latest snapshot,
`install_backup()` copies the snapshot when the data directory is absent,
erases and replaces it when the snapshot revision strictly exceeds the offline
revision, and leaves it unchanged otherwise; and `revision_offline` is the
revision encoded in the last key of the kv table, or `1` when the table is
empty. -/
theorem install_backup_correct (latest : Metadata) (snapshot d : DataDir) (rev : Int)
    (h : XlineHandle.revision_offline d = some rev) :
    XlineHandle.install_backup (some (some (latest, snapshot))) none
        = (InstallOutcome.installed, some snapshot)
      ∧ (rev < latest.revision →
        XlineHandle.install_backup (some (some (latest, snapshot))) (some d)
          = (InstallOutcome.replaced, some snapshot))
      ∧ (latest.revision ≤ rev →
        XlineHandle.install_backup (some (some (latest, snapshot))) (some d)
          = (InstallOutcome.skippedLocalNewer, some d))
      ∧ XlineHandle.revision_offline { kvKeys := [] } = some 1
      ∧ ∀ (ks : List (List Nat)) (k : List Nat),
          XlineHandle.revision_offline { kvKeys := ks ++ [k] } = getI64 k := by
  refine ⟨rfl, fun hlt => ?_, fun hle => ?_, rfl, fun ks k => ?_⟩
  · simp only [XlineHandle.install_backup, h]
    rw [if_neg (not_le.mpr hlt)]
  · simp only [XlineHandle.install_backup, h]
    rw [if_pos hle]
  · simp only [XlineHandle.revision_offline, List.getLast?_concat]

/-- Closed instance of C6: with an on-disk last key encoding revision 5, a
snapshot at revision 9 replaces the data directory and a snapshot at revision 4
leaves it intact; an absent data directory receives the snapshot. -/
theorem install_backup_correct_witness :
    XlineHandle.install_backup
        (some (some ({ name := "a", revision := 9 }, { kvKeys := [[7]] })))
        (some { kvKeys := [[0, 0, 0, 0, 0, 0, 0, 5]] })
      = (InstallOutcome.replaced, some { kvKeys := [[7]] })
      ∧ XlineHandle.install_backup
          (some (some ({ name := "a", revision := 4 }, { kvKeys := [[7]] })))
          (some { kvKeys := [[0, 0, 0, 0, 0, 0, 0, 5]] })
        = (InstallOutcome.skippedLocalNewer, some { kvKeys := [[0, 0, 0, 0, 0, 0, 0, 5]] })
      ∧ XlineHandle.install_backup
          (some (some ({ name := "a", revision := 9 }, { kvKeys := [[7]] }))) none
        = (InstallOutcome.installed, some { kvKeys := [[7]] }) :=
  ⟨((install_backup_correct { name := "a", revision := 9 } { kvKeys := [[7]] }
      { kvKeys := [[0, 0, 0, 0, 0, 0, 0, 5]] } 5 (by decide)).2.1 (by decide)),
   ((install_backup_correct { name := "a", revision := 4 } { kvKeys := [[7]] }
      { kvKeys := [[0, 0, 0, 0, 0, 0, 0, 5]] } 5 (by decide)).2.2.1 (by decide)),
   ((install_backup_correct { name := "a", revision := 9 } { kvKeys := [[7]] }
      { kvKeys := [[0, 0, 0, 0, 0, 0, 0, 5]] } 5 (by decide)).1)⟩

/-- Shallow embedding of the member-list computation inside `XlineHandle::start`
(src/sidecar/src/xline.rs, lines 124-198). `online n` tells whether the test
connection to peer `n` succeeded within the 3-second connect timeout. The
result is `none` when the handle's own name is missing from `xlines` (the
function errors out); otherwise it is the pair `(cluster_started,
start_members)` handed to `inner.start`, with `start_members` listed as the
self entry followed by the online peers in iteration order. -/
def XlineHandle.startMembers (name : String) (xlines : List (String × String))
    (online : String → Bool) : Option (Bool × List (String × String)) :=
  match xlines.lookup name with
  | none => none
  | some selfAddr =>
    let peersOnline := xlines.filter (fun q => decide (q.1 ≠ name) && online q.1)
    some (!peersOnline.isEmpty, (name, selfAddr) :: peersOnline)

/-- C7 (counterexample): `start` is called with members `a → h1`, `b → h2`,
`c → h3`; the test connection reaches `b` but not `c`. Some peer answered, so
the claim requires the inner handle to receive the full map, but it receives
only the self entry plus the reachable peer: the entry `("c", "h3")` of the
passed-in map is absent. -/
theorem start_members_not_full_map :
    XlineHandle.startMembers "a" [("a", "h1"), ("b", "h2"), ("c", "h3")]
        (fun s => s == "b")
      = some (true, [("a", "h1"), ("b", "h2")])
      ∧ ("c", "h3") ∈ [("a", "h1"), ("b", "h2"), ("c", "h3")]
      ∧ ("c", "h3") ∉ [("a", "h1"), ("b", "h2")] := by
  refine ⟨rfl, by decide, by decide⟩

/-- C7 (amended): when the handle's own name is bound in `xlines`, the inner
process handle is started with the self entry when no other peer answers the
test connection, and otherwise with the self entry together with exactly those
peers that answered (which is the full map only when every peer answers). -/
theorem start_members_correct (name selfAddr : String)
    (xlines : List (String × String)) (online : String → Bool)
    (h : xlines.lookup name = some selfAddr) :
    ∃ started members,
      XlineHandle.startMembers name xlines online = some (started, members)
        ∧ ((∀ q ∈ xlines, q.1 ≠ name → online q.1 = false) → members = [(name, selfAddr)])
        ∧ (∀ q, q ∈ members ↔
            q = (name, selfAddr) ∨ (q ∈ xlines ∧ q.1 ≠ name ∧ online q.1 = true)) := by
  have hdef : XlineHandle.startMembers name xlines online
      = some (!(xlines.filter (fun q => decide (q.1 ≠ name) && online q.1)).isEmpty,
          (name, selfAddr) :: xlines.filter (fun q => decide (q.1 ≠ name) && online q.1)) := by
    simp only [XlineHandle.startMembers, h]
  refine ⟨_, _, hdef, fun hoff => ?_, fun q => ?_⟩
  · have hnil : xlines.filter (fun q => decide (q.1 ≠ name) && online q.1) = [] := by
      rw [List.filter_eq_nil_iff]
      intro q hq
      by_cases hname : q.1 = name
      · simp [hname]
      · simp [hname, hoff q hq hname]
    rw [hnil]
  · simp only [List.mem_cons, List.mem_filter, Bool.and_eq_true, decide_eq_true_eq]

/-- Closed instance of the amended C7 statement: with `b` online and `c`
offline, the inner handle receives exactly the self entry and `b`. -/
theorem start_members_correct_witness :
    ∃ started members,
      XlineHandle.startMembers "a" [("a", "h1"), ("b", "h2"), ("c", "h3")]
          (fun s => s == "b")
        = some (started, members)
        ∧ ((∀ q ∈ [("a", "h1"), ("b", "h2"), ("c", "h3")], q.1 ≠ "a" →
              (fun s => s == "b") q.1 = false) → members = [("a", "h1")])
        ∧ (∀ q, q ∈ members ↔
            q = ("a", "h1")
              ∨ (q ∈ [("a", "h1"), ("b", "h2"), ("c", "h3")] ∧ q.1 ≠ "a"
                  ∧ (fun s => s == "b") q.1 = true)) :=
  start_members_correct "a" "h1" [("a", "h1"), ("b", "h2"), ("c", "h3")]
    (fun s => s == "b") (by decide)

/-- One effect of `XlineHandle::stop`. -/
inductive StopAction : Type
  | memberRemove (id : Nat)
  | kill
deriving DecidableEq, Repr

/-- Result of one `XlineHandle::stop` call. -/
structure StopOutcome where
  ok : Bool
  actions : List StopAction
  serverId : Option Nat
deriving DecidableEq, Repr

/-- Shallow embedding of `XlineHandle::stop` (src/sidecar/src/xline.rs, lines
201-219). `serverId` is the stored server id before the call (`self.server_id`,
populated only by a completed successful `start`). `healthy` is the result of
the `is_healthy` probe, `removeOk` and `killOk` tell whether the
`member_remove` RPC and `inner.kill()` succeed. `actions` lists the calls
attempted, in order; `ok` is whether `stop` returns `Ok`; `serverId` in the
outcome is the stored id after the call (`server_id.take()` clears it before
anything else happens). -/
def XlineHandle.stop (serverId : Option Nat) (healthy removeOk killOk : Bool) :
    StopOutcome :=
  match serverId with
  | none => { ok := false, actions := [], serverId := none }
  | some id =>
    if healthy then
      if removeOk then
        { ok := killOk, actions := [StopAction.memberRemove id, StopAction.kill],
          serverId := none }
      else
        { ok := false, actions := [StopAction.memberRemove id], serverId := none }
    else
      { ok := killOk, actions := [StopAction.kill], serverId := none }

/-- C10: `stop()` without a stored server id (no completed successful `start`)
fails and attempts neither a member-remove nor a kill; and since any `stop()`
call clears the stored id first, the second of two consecutive `stop()` calls
after one successful `start` always fails with no effect on the process. -/
theorem stop_requires_started (id : Nat) (h1 r1 k1 h2 r2 k2 : Bool) :
    XlineHandle.stop none h1 r1 k1 = { ok := false, actions := [], serverId := none }
      ∧ (XlineHandle.stop (some id) h1 r1 k1).serverId = none
      ∧ XlineHandle.stop (XlineHandle.stop (some id) h1 r1 k1).serverId h2 r2 k2
          = { ok := false, actions := [], serverId := none } := by
  refine ⟨rfl, ?_, ?_⟩ <;> cases h1 <;> cases r1 <;> rfl

/-- Heartbeat status, from `src/operator-api/src/lib.rs`; its `Ord` instance
compares timestamps only. -/
structure HeartbeatStatus where
  cluster_name : String
  name : String
  timestamp : Nat
  reachable : List String
deriving DecidableEq, Repr

/-- Timestamp of `statuses.values().max()`: since `HeartbeatStatus` is ordered
by timestamp, it is the maximal timestamp (`none` on an empty map). -/
def latestTs (statuses : List HeartbeatStatus) : Option Nat :=
  (statuses.map (fun s => s.timestamp)).max?

/-- The accepted statuses: those with `s.timestamp + heartbeat_period >=
latest_ts` (the `u64` sum does not overflow for realistic epoch timestamps). -/
def acceptedStatuses (statuses : List HeartbeatStatus) (period latest : Nat) :
    List HeartbeatStatus :=
  statuses.filter (fun s => decide (latest ≤ s.timestamp + period))

/-- Shallow embedding of `get_reachable_counts` (src/operator-k8s/src/monitor.rs,
lines 178-214). `myTs` is the operator's local clock in seconds. The returned
counts map is represented as a total function defaulting to `0`, matching the
later lookup `counts.get(name).copied().unwrap_or(0)`. -/
def get_reachable_counts (statuses : List HeartbeatStatus)
    (period majority myTs : Nat) : Option (String → Nat) :=
  match latestTs statuses with
  | none => none
  | some latest =>
    if period < Nat.dist myTs latest then none
    else
      if (acceptedStatuses statuses period latest).length < majority then none
      else
        some (fun n =>
          (((acceptedStatuses statuses period latest).map
            (fun s => s.reachable)).flatten).count n)

/-- Hash-map insert on an association list: the binding for `k` is replaced. -/
def insertAssoc (l : List (String × HeartbeatStatus)) (k : String)
    (v : HeartbeatStatus) : List (String × HeartbeatStatus) :=
  (k, v) :: l.filter (fun p => decide (p.1 ≠ k))

/-- Shallow embedding of the pod-deletion decisions of one round of
`SidecarMonitor::state_update_inner` (src/operator-k8s/src/monitor.rs, lines
94-164), for a heartbeat whose cluster spec lookup succeeded with size
`specSize`. `clusterStatus` and `clusterUnreachable` are the per-cluster maps
before the round; the incoming status is stored first, then the counts are
computed, and a pod is deleted exactly for the members whose count is below
majority and that are not already tracked in the unreachable cache (tracked
members only have their counter incremented, or are dropped from tracking at
the threshold — no deletion either way). -/
def state_update_deletions (specSize period myTs : Nat)
    (clusterStatus : List (String × HeartbeatStatus))
    (clusterUnreachable : List (String × Nat))
    (incoming : HeartbeatStatus) : List String :=
  let majority := specSize / 2 + 1
  let statuses := insertAssoc clusterStatus incoming.name incoming
  match get_reachable_counts (statuses.map Prod.snd) period majority myTs with
  | none => []
  | some counts =>
    (statuses.map Prod.fst).filter
      (fun n => decide (counts n < majority) && (clusterUnreachable.lookup n).isNone)

/-- C8: the fleet supervisor never deletes the pod of a member whose reachable
count over accepted statuses is at least `majority = ⌊size/2⌋ + 1`, and it
deletes no pod at all when the snapshot is rejected — in particular under
clock skew (`|local clock - latest timestamp| > heartbeat_period`) and when
fewer than `majority` statuses are accepted. -/
theorem monitor_never_deletes_reachable (specSize period myTs : Nat)
    (clusterStatus : List (String × HeartbeatStatus))
    (clusterUnreachable : List (String × Nat)) (incoming : HeartbeatStatus) :
    (∀ counts,
        get_reachable_counts ((insertAssoc clusterStatus incoming.name incoming).map Prod.snd)
            period (specSize / 2 + 1) myTs = some counts →
        ∀ n ∈ state_update_deletions specSize period myTs clusterStatus
            clusterUnreachable incoming, counts n < specSize / 2 + 1)
      ∧ (get_reachable_counts ((insertAssoc clusterStatus incoming.name incoming).map Prod.snd)
            period (specSize / 2 + 1) myTs = none →
        state_update_deletions specSize period myTs clusterStatus
            clusterUnreachable incoming = [])
      ∧ (∀ latest,
          latestTs ((insertAssoc clusterStatus incoming.name incoming).map Prod.snd)
              = some latest →
          period < Nat.dist myTs latest →
          state_update_deletions specSize period myTs clusterStatus
              clusterUnreachable incoming = [])
      ∧ (∀ latest,
          latestTs ((insertAssoc clusterStatus incoming.name incoming).map Prod.snd)
              = some latest →
          (acceptedStatuses ((insertAssoc clusterStatus incoming.name incoming).map Prod.snd)
              period latest).length < specSize / 2 + 1 →
          state_update_deletions specSize period myTs clusterStatus
              clusterUnreachable incoming = []) := by
  have hnone : get_reachable_counts
      ((insertAssoc clusterStatus incoming.name incoming).map Prod.snd)
      period (specSize / 2 + 1) myTs = none →
      state_update_deletions specSize period myTs clusterStatus
        clusterUnreachable incoming = [] := by
    intro hm
    simp only [state_update_deletions, hm]
  refine ⟨?_, hnone, ?_, ?_⟩
  · intro counts hm n hn
    simp only [state_update_deletions, hm] at hn
    rw [List.mem_filter] at hn
    have := hn.2
    rw [Bool.and_eq_true, decide_eq_true_eq] at this
    exact this.1
  · intro latest hl hskew
    refine hnone ?_
    simp only [get_reachable_counts, hl]
    rw [if_pos hskew]
  · intro latest hl hmin
    refine hnone ?_
    simp only [get_reachable_counts, hl]
    by_cases hskew : period < Nat.dist myTs latest
    · rw [if_pos hskew]
    · rw [if_neg hskew, if_pos hmin]

/-- Closed instance of C8. First round: incoming heartbeat of `c` at time 100,
stored statuses of `a` (time 100, sees `a` and `c`) and `b` (stale, time 5);
local clock 100, period 10, size 3 (majority 2). The accepted statuses are
those of `a` and `c`, the counts are `a ↦ 1`, `b ↦ 0`, `c ↦ 2`, and every
member whose pod is deleted indeed has count below 2. Second round: same but
with local clock 300: the snapshot is rejected for clock skew and nothing is
deleted. -/
theorem monitor_never_deletes_reachable_witness :
    (∀ n ∈ state_update_deletions 3 10 100
        [("a", { cluster_name := "c1", name := "a", timestamp := 100,
                 reachable := ["a", "c"] }),
         ("b", { cluster_name := "c1", name := "b", timestamp := 5,
                 reachable := ["b"] })]
        []
        { cluster_name := "c1", name := "c", timestamp := 100,
          reachable := ["c", "a"] },
      (((acceptedStatuses
          ((insertAssoc
            [("a", { cluster_name := "c1", name := "a", timestamp := 100,
                     reachable := ["a", "c"] }),
             ("b", { cluster_name := "c1", name := "b", timestamp := 5,
                     reachable := ["b"] })]
            "c"
            { cluster_name := "c1", name := "c", timestamp := 100,
              reachable := ["c", "a"] }).map Prod.snd)
          10 100).map (fun s => s.reachable)).flatten).count n < 2)
      ∧ state_update_deletions 3 10 300
        [("a", { cluster_name := "c1", name := "a", timestamp := 100,
                 reachable := ["a", "c"] }),
         ("b", { cluster_name := "c1", name := "b", timestamp := 5,
                 reachable := ["b"] })]
        []
        { cluster_name := "c1", name := "c", timestamp := 100,
          reachable := ["c", "a"] } = [] := by
  constructor
  · intro n hn
    exact (monitor_never_deletes_reachable 3 10 100
      [("a", { cluster_name := "c1", name := "a", timestamp := 100,
               reachable := ["a", "c"] }),
       ("b", { cluster_name := "c1", name := "b", timestamp := 5,
               reachable := ["b"] })]
      []
      { cluster_name := "c1", name := "c", timestamp := 100,
        reachable := ["c", "a"] }).1 _ rfl n hn
  · exact (monitor_never_deletes_reachable 3 10 300
      [("a", { cluster_name := "c1", name := "a", timestamp := 100,
               reachable := ["a", "c"] }),
       ("b", { cluster_name := "c1", name := "b", timestamp := 5,
               reachable := ["b"] })]
      []
      { cluster_name := "c1", name := "c", timestamp := 100,
        reachable := ["c", "a"] }).2.2.1 100 rfl (by decide)

/-- The api version, from enum `ApiVersion` in `src/utils/src/migration.rs`
(the phantom type parameter is dropped; it never influences behaviour). -/
inductive ApiVersion : Type
  | Alpha (main sub : Nat)
  | Beta (main sub : Nat)
  | Stable (main : Nat)
deriving DecidableEq, Repr

/-- Decimal rendering of a natural number with explicit fuel (most significant
digit first), matching Rust's `u32` `Display`. -/
def natCharsFuel : Nat → Nat → List Char
  | 0, _ => []
  | f + 1, n =>
    if n < 10 then [Char.ofNat (48 + n)]
    else natCharsFuel f (n / 10) ++ [Char.ofNat (48 + n % 10)]

/-- Decimal rendering of a natural number, most significant digit first. -/
def natChars (n : Nat) : List Char := natCharsFuel (n + 1) n

theorem digitChar_isDigit : ∀ m : Nat, m < 10 → (Char.ofNat (48 + m)).isDigit = true := by
  decide

theorem digitChar_toNat : ∀ m : Nat, m < 10 → (Char.ofNat (48 + m)).toNat = 48 + m := by
  decide

theorem natCharsFuel_ne_nil (f n : Nat) (h : n < f) : natCharsFuel f n ≠ [] := by
  cases f with
  | zero => omega
  | succ f =>
    simp only [natCharsFuel]
    split <;> simp

theorem natCharsFuel_isDigit (f : Nat) : ∀ n, n < f →
    ∀ c ∈ natCharsFuel f n, c.isDigit = true := by
  induction f with
  | zero => intro n hn; omega
  | succ f ih =>
    intro n hn c hc
    simp only [natCharsFuel] at hc
    by_cases h10 : n < 10
    · rw [if_pos h10] at hc
      simp only [List.mem_singleton] at hc
      subst hc
      exact digitChar_isDigit n h10
    · rw [if_neg h10] at hc
      rcases List.mem_append.mp hc with h | h
      · have hdiv : n / 10 < n := Nat.div_lt_self (by omega) (by omega)
        exact ih (n / 10) (by omega) c h
      · simp only [List.mem_singleton] at h
        subst h
        exact digitChar_isDigit (n % 10) (Nat.mod_lt n (by omega))

theorem natCharsFuel_foldl (f : Nat) : ∀ n k, n < f →
    (natCharsFuel f n).foldl (fun a c => a * 10 + (c.toNat - 48)) k
      = k * 10 ^ (natCharsFuel f n).length + n := by
  induction f with
  | zero => intro n k hn; omega
  | succ f ih =>
    intro n k hn
    by_cases h10 : n < 10
    · simp only [natCharsFuel, if_pos h10, List.foldl_cons, List.foldl_nil,
        List.length_singleton, pow_one]
      rw [digitChar_toNat n h10]
      omega
    · have hdiv : n / 10 < n := Nat.div_lt_self (by omega) (by omega)
      simp only [natCharsFuel, if_neg h10, List.foldl_append, List.foldl_cons,
        List.foldl_nil, List.length_append, List.length_singleton]
      rw [ih (n / 10) k (by omega), digitChar_toNat (n % 10) (Nat.mod_lt n (by omega))]
      have hpow : 10 ^ ((natCharsFuel f (n / 10)).length + 1)
          = 10 ^ (natCharsFuel f (n / 10)).length * 10 := pow_succ 10 _
      rw [hpow]
      have hmod : n / 10 * 10 + n % 10 = n := by omega
      ring_nf
      omega

theorem natChars_ne_nil (n : Nat) : natChars n ≠ [] :=
  natCharsFuel_ne_nil (n + 1) n (Nat.lt_succ_self n)

theorem natChars_isDigit (n : Nat) : ∀ c ∈ natChars n, c.isDigit = true :=
  natCharsFuel_isDigit (n + 1) n (Nat.lt_succ_self n)

theorem natChars_foldl (n k : Nat) :
    (natChars n).foldl (fun a c => a * 10 + (c.toNat - 48)) k
      = k * 10 ^ (natChars n).length + n :=
  natCharsFuel_foldl (n + 1) n k (Nat.lt_succ_self n)

/-- Shallow embedding of Rust's `u32::from_str`: an optional leading plus sign
followed by one or more decimal digits, rejected on overflow. -/
def parseU32 (s : List Char) : Option Nat :=
  let digits := match s with
    | [] => s
    | c :: rest => if c = '+' then rest else s
  if digits.isEmpty then none
  else if digits.all (fun c => c.isDigit) then
    let v := digits.foldl (fun a c => a * 10 + (c.toNat - 48)) 0
    if v < 2 ^ 32 then some v else none
  else none

theorem parseU32_natChars (n : Nat) (h : n < 2 ^ 32) : parseU32 (natChars n) = some n := by
  obtain ⟨c, cs, hcons⟩ : ∃ c cs, natChars n = c :: cs := by
    cases hnc : natChars n with
    | nil => exact absurd hnc (natChars_ne_nil n)
    | cons c cs => exact ⟨c, cs, rfl⟩
  have hcdig : c.isDigit = true := natChars_isDigit n c (hcons ▸ List.mem_cons_self c cs)
  have hplus : c ≠ '+' := by
    intro hc
    rw [hc] at hcdig
    exact absurd hcdig (by decide)
  have hfold := natChars_foldl n 0
  rw [zero_mul, zero_add] at hfold
  simp only [parseU32, hcons, if_neg hplus]
  rw [← hcons]
  have hne : (natChars n).isEmpty = false := by
    rw [hcons]; rfl
  rw [hne]
  have hall : (natChars n).all (fun c => c.isDigit) = true := by
    rw [List.all_eq_true]
    exact natChars_isDigit n
  simp only [Bool.false_eq_true, if_false, hall, if_true, hfold, if_pos h]

/-- Whether `pat` occurs at the start of `s`. -/
def startsWithSeq (s pat : List Char) : Bool :=
  match pat, s with
  | [], _ => true
  | _ :: _, [] => false
  | p :: ps, c :: t => c == p && startsWithSeq t ps

/-- Rust `str::contains`: whether `pat` occurs anywhere in `s`. -/
def containsSub : List Char → List Char → Bool
  | [], pat => pat.isEmpty
  | c :: t, pat => startsWithSeq (c :: t) pat || containsSub t pat

/-- Rust `str::split` on a non-empty pattern, with explicit fuel (one unit per
consumed character suffices, so `s.length + 1` is always enough). The pieces
are the maximal fragments between non-overlapping occurrences of `pat`,
scanned left to right. -/
def splitOnFuel (pat : List Char) : Nat → List Char → List (List Char)
  | 0, _ => []
  | _ + 1, [] => [[]]
  | f + 1, c :: t =>
    if startsWithSeq (c :: t) pat && !pat.isEmpty then
      [] :: splitOnFuel pat f ((c :: t).drop pat.length)
    else
      match splitOnFuel pat f t with
      | [] => []
      | h :: r => (c :: h) :: r

/-- Rust `str::split` collected into a vector. -/
def splitOnSeq (s pat : List Char) : List (List Char) :=
  splitOnFuel pat (s.length + 1) s

theorem startsWithSeq_nil (s : List Char) : startsWithSeq s [] = true := by
  cases s <;> rfl

theorem startsWithSeq_append (p b : List Char) : startsWithSeq (p ++ b) p = true := by
  induction p generalizing b with
  | nil => exact startsWithSeq_nil b
  | cons c p ih => simp [startsWithSeq, ih]

theorem mem_of_startsWithSeq {s pat : List Char} (h : startsWithSeq s pat = true) :
    ∀ c ∈ pat, c ∈ s := by
  induction pat generalizing s with
  | nil => simp
  | cons p ps ih =>
    cases s with
    | nil => exact absurd h (by simp [startsWithSeq])
    | cons c t =>
      simp only [startsWithSeq, Bool.and_eq_true, beq_iff_eq] at h
      intro x hx
      rcases List.mem_cons.mp hx with hx | hx
      · subst hx
        rw [← h.1]
        exact List.mem_cons_self _ _
      · exact List.mem_cons_of_mem _ (ih h.2 x hx)

theorem mem_of_containsSub {s pat : List Char} (h : containsSub s pat = true) :
    ∀ c ∈ pat, c ∈ s := by
  induction s with
  | nil =>
    cases pat with
    | nil => simp
    | cons p ps => exact absurd h (by simp [containsSub, List.isEmpty])
  | cons c t ih =>
    simp only [containsSub, Bool.or_eq_true] at h
    rcases h with h | h
    · exact mem_of_startsWithSeq h
    · intro x hx
      exact List.mem_cons_of_mem _ (ih h x hx)

theorem containsSub_eq_false {s pat : List Char} {c : Char} (hc : c ∈ pat) (hs : c ∉ s) :
    containsSub s pat = false := by
  cases h : containsSub s pat with
  | false => rfl
  | true => exact absurd (mem_of_containsSub h c hc) hs

theorem containsSub_append (x y : List Char) (p0 : Char) (pr : List Char) :
    containsSub (x ++ ((p0 :: pr) ++ y)) (p0 :: pr) = true := by
  induction x with
  | nil =>
    have hs : ([] : List Char) ++ ((p0 :: pr) ++ y) = p0 :: (pr ++ y) := by simp
    rw [hs]
    have hsw : startsWithSeq (p0 :: (pr ++ y)) (p0 :: pr) = true := by
      simp only [startsWithSeq, beq_self_eq_true, Bool.true_and]
      exact startsWithSeq_append pr y
    simp only [containsSub, hsw, Bool.true_or]
  | cons e x ih =>
    have hs : (e :: x) ++ ((p0 :: pr) ++ y) = e :: (x ++ ((p0 :: pr) ++ y)) := by simp
    rw [hs]
    simp only [containsSub, Bool.or_eq_true]
    exact Or.inr ih

theorem splitOnFuel_fuel_irrel (pat : List Char) (f : Nat) : ∀ g s, s.length < f →
    List.length s < g → splitOnFuel pat f s = splitOnFuel pat g s := by
  induction f with
  | zero => intro g s h; omega
  | succ f ih =>
    intro g s hf hg
    cases g with
    | zero => omega
    | succ g =>
      cases s with
      | nil => rfl
      | cons c t =>
        simp only [splitOnFuel]
        by_cases hcond : (startsWithSeq (c :: t) pat && !pat.isEmpty) = true
        · rw [if_pos hcond, if_pos hcond]
          have hpatlen : 1 ≤ pat.length := by
            rcases pat with _ | ⟨p, ps⟩
            · simp at hcond
            · simp
          have hdrop : ((c :: t).drop pat.length).length < f := by
            simp only [List.length_drop, List.length_cons] at *
            omega
          have hdropg : ((c :: t).drop pat.length).length < g := by
            simp only [List.length_drop, List.length_cons] at *
            omega
          rw [ih _ _ hdrop hdropg]
        · rw [if_neg hcond, if_neg hcond]
          have ht : t.length < f := by
            simp only [List.length_cons] at hf
            omega
          have htg : t.length < g := by
            simp only [List.length_cons] at hg
            omega
          rw [ih _ _ ht htg]

theorem splitOnFuel_no_occurrence (pat : List Char) (f : Nat) :
    ∀ s, s.length < f → containsSub s pat = false → splitOnFuel pat f s = [s] := by
  induction f with
  | zero => intro s h; omega
  | succ f ih =>
    intro s hf hc
    cases s with
    | nil => rfl
    | cons c t =>
      simp only [containsSub, Bool.or_eq_false_iff] at hc
      simp only [splitOnFuel]
      rw [if_neg (by simp [hc.1])]
      have ht : t.length < f := by
        simp only [List.length_cons] at hf
        omega
      rw [ih t ht hc.2]

theorem splitOnFuel_first_occurrence (p0 : Char) (pr b : List Char) :
    ∀ (a : List Char) (f : Nat), (∀ c ∈ a, c ≠ p0) →
      (a ++ ((p0 :: pr) ++ b)).length < f →
      splitOnFuel (p0 :: pr) f (a ++ ((p0 :: pr) ++ b))
        = a :: splitOnFuel (p0 :: pr) (b.length + 1) b := by
  intro a
  induction a with
  | nil =>
    intro f _ hf
    cases f with
    | zero => omega
    | succ f =>
      have hs : ([] : List Char) ++ ((p0 :: pr) ++ b) = p0 :: (pr ++ b) := by simp
      rw [hs]
      simp only [splitOnFuel]
      have hsw : startsWithSeq (p0 :: (pr ++ b)) (p0 :: pr) = true := by
        simp only [startsWithSeq, beq_self_eq_true, Bool.true_and]
        exact startsWithSeq_append pr b
      rw [if_pos (by simp [hsw])]
      have hdrop : (p0 :: (pr ++ b)).drop (p0 :: pr).length = b := by
        simp only [List.length_cons, List.drop_succ_cons]
        exact List.drop_left pr b
      rw [hdrop]
      have hlen : b.length < f := by
        rw [hs] at hf
        simp only [List.length_cons, List.length_append] at hf
        omega
      rw [splitOnFuel_fuel_irrel (p0 :: pr) f (b.length + 1) b hlen (Nat.lt_succ_self _)]
  | cons e a ih =>
    intro f he hf
    cases f with
    | zero => omega
    | succ f =>
      have hs : (e :: a) ++ ((p0 :: pr) ++ b) = e :: (a ++ ((p0 :: pr) ++ b)) := by simp
      rw [hs]
      simp only [splitOnFuel]
      have hne : ∀ l : List Char, startsWithSeq (e :: l) (p0 :: pr) = false := by
        intro l
        simp only [startsWithSeq, Bool.and_eq_false_iff]
        left
        simpa using he e (List.mem_cons_self e a)
      rw [if_neg (by simp [hne])]
      have hlen : (a ++ ((p0 :: pr) ++ b)).length < f := by
        rw [hs] at hf
        simp only [List.length_cons] at hf
        omega
      rw [ih f (fun c hc => he c (List.mem_cons_of_mem e hc)) hlen]

theorem splitOnSeq_split (p0 : Char) (pr : List Char) (a b : List Char)
    (ha : ∀ c ∈ a, c ≠ p0) (hb : containsSub b (p0 :: pr) = false) :
    splitOnSeq (a ++ ((p0 :: pr) ++ b)) (p0 :: pr) = [a, b] := by
  unfold splitOnSeq
  rw [splitOnFuel_first_occurrence p0 pr b a _ ha (Nat.lt_succ_self _)]
  rw [splitOnFuel_no_occurrence (p0 :: pr) (b.length + 1) b (Nat.lt_succ_self _) hb]

/-- The characters of the literal pattern `"alpha"`. -/
def alphaChars : List Char := ['a', 'l', 'p', 'h', 'a']

/-- The characters of the literal pattern `"beta"`. -/
def betaChars : List Char := ['b', 'e', 't', 'a']

/-- Shallow embedding of `ApiVersion::from_str` (src/utils/src/migration.rs,
lines 60-98), on the character list of the label. The version must start with
`v`; a label containing `alpha` (checked first) or `beta` must split on that
pattern into exactly two parts, the first parsed as the main version and the
second, when non-empty, as the sub version (an empty second part means sub
version `0`); otherwise the remainder after `v` is the main version of a
stable label. -/
def ApiVersion.fromStr (s : List Char) : Option ApiVersion :=
  match s with
  | [] => none
  | c :: rest =>
    if c = 'v' then
      if containsSub (c :: rest) alphaChars then
        match splitOnSeq rest alphaChars with
        | [p1, p2] =>
          match parseU32 p1 with
          | none => none
          | some mainVer =>
            if p2.isEmpty then some (ApiVersion.Alpha mainVer 0)
            else
              match parseU32 p2 with
              | none => none
              | some subVer => some (ApiVersion.Alpha mainVer subVer)
        | _ => none
      else if containsSub (c :: rest) betaChars then
        match splitOnSeq rest betaChars with
        | [p1, p2] =>
          match parseU32 p1 with
          | none => none
          | some mainVer =>
            if p2.isEmpty then some (ApiVersion.Beta mainVer 0)
            else
              match parseU32 p2 with
              | none => none
              | some subVer => some (ApiVersion.Beta mainVer subVer)
        | _ => none
      else
        (parseU32 rest).map ApiVersion.Stable
    else none

/-- Shallow embedding of the `Display` implementation for `ApiVersion`
(src/utils/src/migration.rs, lines 100-122): the sub version is printed only
when it is positive. -/
def ApiVersion.render : ApiVersion → List Char
  | ApiVersion.Alpha main sub =>
    if 0 < sub then 'v' :: (natChars main ++ (alphaChars ++ natChars sub))
    else 'v' :: (natChars main ++ alphaChars)
  | ApiVersion.Beta main sub =>
    if 0 < sub then 'v' :: (natChars main ++ (betaChars ++ natChars sub))
    else 'v' :: (natChars main ++ betaChars)
  | ApiVersion.Stable main => 'v' :: natChars main

/-- The numeric components fit in a `u32`, as they do for every value the Rust
type can hold. -/
def ApiVersion.wf : ApiVersion → Prop
  | ApiVersion.Alpha main sub => main < 2 ^ 32 ∧ sub < 2 ^ 32
  | ApiVersion.Beta main sub => main < 2 ^ 32 ∧ sub < 2 ^ 32
  | ApiVersion.Stable main => main < 2 ^ 32

theorem not_mem_natChars_of_not_digit {c : Char} (hc : c.isDigit = false) (n : Nat) :
    c ∉ natChars n := by
  intro hmem
  have := natChars_isDigit n c hmem
  rw [hc] at this
  exact absurd this (by simp)

theorem natChars_ne_char {c : Char} (hc : c.isDigit = false) (n : Nat) :
    ∀ d ∈ natChars n, d ≠ c := by
  intro d hd he
  subst he
  exact not_mem_natChars_of_not_digit hc n hd

theorem fromStr_render (v : ApiVersion) (h : v.wf) :
    ApiVersion.fromStr v.render = some v := by
  cases v with
  | Stable main =>
    have hm : main < 2 ^ 32 := h
    have hca : containsSub ('v' :: natChars main) alphaChars = false := by
      refine containsSub_eq_false (c := 'l') (by decide) ?_
      intro hmem
      rcases List.mem_cons.mp hmem with h2 | h2
      · exact absurd h2 (by decide)
      · exact not_mem_natChars_of_not_digit (by decide) main h2
    have hcb : containsSub ('v' :: natChars main) betaChars = false := by
      refine containsSub_eq_false (c := 'b') (by decide) ?_
      intro hmem
      rcases List.mem_cons.mp hmem with h2 | h2
      · exact absurd h2 (by decide)
      · exact not_mem_natChars_of_not_digit (by decide) main h2
    simp [ApiVersion.render, ApiVersion.fromStr, hca, hcb, parseU32_natChars main hm]
  | Alpha main sub =>
    obtain ⟨hm, hs⟩ := h
    by_cases hsub : 0 < sub
    · have hca : containsSub ('v' :: (natChars main ++ (alphaChars ++ natChars sub)))
          alphaChars = true := by
        have h2 := containsSub_append ('v' :: natChars main) (natChars sub)
          'a' ['l', 'p', 'h', 'a']
        simpa [alphaChars] using h2
      have hsplit : splitOnSeq (natChars main ++ (alphaChars ++ natChars sub)) alphaChars
          = [natChars main, natChars sub] := by
        have h2 := splitOnSeq_split 'a' ['l', 'p', 'h', 'a'] (natChars main) (natChars sub)
          (natChars_ne_char (by decide) main)
          (containsSub_eq_false (c := 'a') (by decide)
            (not_mem_natChars_of_not_digit (by decide) sub))
        simpa [alphaChars] using h2
      have hne : (natChars sub).isEmpty = false := by
        cases h2 : natChars sub with
        | nil => exact absurd h2 (natChars_ne_nil sub)
        | cons c cs => rfl
      simp [ApiVersion.render, hsub, ApiVersion.fromStr, hca, hsplit, hne,
        parseU32_natChars main hm, parseU32_natChars sub hs]
    · have hsub0 : sub = 0 := by omega
      subst hsub0
      have hca : containsSub ('v' :: (natChars main ++ alphaChars)) alphaChars = true := by
        have h2 := containsSub_append ('v' :: natChars main) [] 'a' ['l', 'p', 'h', 'a']
        simpa [alphaChars] using h2
      have hsplit : splitOnSeq (natChars main ++ alphaChars) alphaChars
          = [natChars main, []] := by
        have h2 := splitOnSeq_split 'a' ['l', 'p', 'h', 'a'] (natChars main) []
          (natChars_ne_char (by decide) main) (by decide)
        simpa [alphaChars] using h2
      simp [ApiVersion.render, ApiVersion.fromStr, hca, hsplit, parseU32_natChars main hm]
  | Beta main sub =>
    obtain ⟨hm, hs⟩ := h
    by_cases hsub : 0 < sub
    · have hca : containsSub ('v' :: (natChars main ++ (betaChars ++ natChars sub)))
          alphaChars = false := by
        refine containsSub_eq_false (c := 'l') (by decide) ?_
        intro hmem
        simp only [List.mem_cons, List.mem_append] at hmem
        rcases hmem with h2 | h2 | h2 | h2
        · exact absurd h2 (by decide)
        · exact not_mem_natChars_of_not_digit (by decide) main h2
        · exact absurd h2 (by decide)
        · exact not_mem_natChars_of_not_digit (by decide) sub h2
      have hcb : containsSub ('v' :: (natChars main ++ (betaChars ++ natChars sub)))
          betaChars = true := by
        have h2 := containsSub_append ('v' :: natChars main) (natChars sub)
          'b' ['e', 't', 'a']
        simpa [betaChars] using h2
      have hsplit : splitOnSeq (natChars main ++ (betaChars ++ natChars sub)) betaChars
          = [natChars main, natChars sub] := by
        have h2 := splitOnSeq_split 'b' ['e', 't', 'a'] (natChars main) (natChars sub)
          (natChars_ne_char (by decide) main)
          (containsSub_eq_false (c := 'b') (by decide)
            (not_mem_natChars_of_not_digit (by decide) sub))
        simpa [betaChars] using h2
      have hne : (natChars sub).isEmpty = false := by
        cases h2 : natChars sub with
        | nil => exact absurd h2 (natChars_ne_nil sub)
        | cons c cs => rfl
      simp [ApiVersion.render, hsub, ApiVersion.fromStr, hca, hcb, hsplit, hne,
        parseU32_natChars main hm, parseU32_natChars sub hs]
    · have hsub0 : sub = 0 := by omega
      subst hsub0
      have hca : containsSub ('v' :: (natChars main ++ betaChars)) alphaChars = false := by
        refine containsSub_eq_false (c := 'l') (by decide) ?_
        intro hmem
        simp only [List.mem_cons, List.mem_append] at hmem
        rcases hmem with h2 | h2 | h2
        · exact absurd h2 (by decide)
        · exact not_mem_natChars_of_not_digit (by decide) main h2
        · exact absurd h2 (by decide)
      have hcb : containsSub ('v' :: (natChars main ++ betaChars)) betaChars = true := by
        have h2 := containsSub_append ('v' :: natChars main) [] 'b' ['e', 't', 'a']
        simpa [betaChars] using h2
      have hsplit : splitOnSeq (natChars main ++ betaChars) betaChars
          = [natChars main, []] := by
        have h2 := splitOnSeq_split 'b' ['e', 't', 'a'] (natChars main) []
          (natChars_ne_char (by decide) main) (by decide)
        simpa [betaChars] using h2
      simp [ApiVersion.render, ApiVersion.fromStr, hca, hcb, hsplit,
        parseU32_natChars main hm]

/-- C9 (counterexample): the label `v1alpha0` has the claimed string form
`vNalpha[M]` and parses successfully, but re-rendering drops the zero sub
version: `parse("v1alpha0").to_string() == "v1alpha"`. The same happens to any
label with a leading zero or an explicit `+` sign in a numeral. -/
theorem apiVersion_roundtrip_fails_on_zero_sub :
    ApiVersion.fromStr "v1alpha0".data = some (ApiVersion.Alpha 1 0)
      ∧ ApiVersion.render (ApiVersion.Alpha 1 0) = "v1alpha".data
      ∧ "v1alpha".data ≠ "v1alpha0".data := by
  refine ⟨by decide, by decide, by decide⟩

/-- C9 (amended): parsing and re-rendering is the identity on every label in
canonical form — the rendering of some version value, that is, numerals
without a sign or leading zeros and an explicit sub version only when it is
positive. -/
theorem apiVersion_parse_render_roundtrip (s : List Char)
    (h : ∃ v : ApiVersion, v.wf ∧ s = v.render) :
    (ApiVersion.fromStr s).map ApiVersion.render = some s := by
  obtain ⟨v, hwf, rfl⟩ := h
  rw [fromStr_render v hwf, Option.map_some']

/-- Closed instance of the amended C9 statement at the label `v2beta3`. -/
theorem apiVersion_parse_render_roundtrip_witness :
    (ApiVersion.fromStr "v2beta3".data).map ApiVersion.render = some "v2beta3".data :=
  apiVersion_parse_render_roundtrip "v2beta3".data
    ⟨ApiVersion.Beta 2 3, ⟨by norm_num, by norm_num⟩, by decide⟩
